import Mathlib

/-!
Verification development for the `frid` episode-identification core
(`src/identify_episode.py`).  The Python functions are shallowly embedded as
executable Lean definitions: the fuzzy-matching pipeline
(`fuzz.token_set_ratio` as called by `match_transcript_to_episode`), the
catalog cache store (`is_cache_valid`, `load_cached_episodes`,
`save_episodes_cache`) and the two-phase network fetch
(`fetch_friends_episodes`, `fetch_episode_data`) over an explicit
environment of network responses and filesystem state.
-/

/- ===== Character/string processing (fuzzywuzzy utils) ===== -/

/-- Characters with code point below 128; `utils.asciidammit` with
`force_ascii=True` deletes all others from the string. -/
def isAsciiChar (c : Char) : Bool := c.toNat < 128

/-- ASCII word characters: the characters the regex `\W` does NOT replace
with whitespace (letters, digits, underscore). -/
def isWordChar (c : Char) : Bool :=
  (97 ≤ c.toNat && c.toNat ≤ 122) || (65 ≤ c.toNat && c.toNat ≤ 90) ||
  (48 ≤ c.toNat && c.toNat ≤ 57) || c.toNat == 95

/-- ASCII lower-casing of one character (Python `str.lower` on ASCII input). -/
def lowerChar (c : Char) : Char :=
  if 65 ≤ c.toNat ∧ c.toNat ≤ 90 then Char.ofNat (c.toNat + 32) else c

/-- The only whitespace character that survives `full_process` is `' '`. -/
def isSpaceChar (c : Char) : Bool := c == ' '

/-- Python `str.lower()` (ASCII fragment), as called on the transcript,
summary and title before scoring. -/
def pyLower (s : String) : String := ⟨s.data.map lowerChar⟩

/-- Python `str.strip()` on a processed string (whitespace is `' '` only). -/
def pyStrip (l : List Char) : List Char :=
  ((l.dropWhile isSpaceChar).reverse.dropWhile isSpaceChar).reverse

/-- fuzzywuzzy `utils.full_process`: drop non-ASCII, replace every non-word
character with a space, lower-case, strip. -/
def full_process (l : List Char) : List Char :=
  pyStrip (((l.filter isAsciiChar).map
    (fun c => if isWordChar c then c else ' ')).map lowerChar)

/-- Helper for `pySplit`: accumulates the current (reversed) token. -/
def pySplitAux : List Char → List Char → List (List Char)
  | [], acc => if acc.isEmpty then [] else [acc.reverse]
  | c :: rest, acc =>
    if isSpaceChar c then
      if acc.isEmpty then pySplitAux rest []
      else acc.reverse :: pySplitAux rest []
    else pySplitAux rest (c :: acc)

/-- Python `str.split()` with no separator: split on runs of whitespace,
no empty tokens. -/
def pySplit (l : List Char) : List (List Char) := pySplitAux l []

/-- Code-point lexicographic order on tokens (Python `<` on strings). -/
def tokLt : List Char → List Char → Bool
  | [], [] => false
  | [], _ :: _ => true
  | _ :: _, [] => false
  | a :: s, b :: t =>
    if a.toNat < b.toNat then true
    else if b.toNat < a.toNat then false
    else tokLt s t

/-- Ascending insertion for `sortToks`. -/
def insertTok (x : List Char) : List (List Char) → List (List Char)
  | [] => [x]
  | y :: ys => if tokLt x y then x :: y :: ys else y :: insertTok x ys

/-- Python `sorted()` on a list of distinct tokens. -/
def sortToks (l : List (List Char)) : List (List Char) := l.foldr insertTok []

/-- Python `" ".join(...)`. -/
def joinSp : List (List Char) → List Char
  | [] => []
  | [t] => t
  | t :: ts => t ++ ' ' :: joinSp ts

/- ===== Levenshtein-based ratio (python-Levenshtein backend) ===== -/

/-- Longest common subsequence length, with explicit fuel so the definition
is structurally recursive (and so kernel-reducible).  Every recursive call
consumes one unit of fuel and shortens the combined length by at least one,
so fuel `s.length + t.length` is always sufficient. -/
def lcsFuel : ℕ → List Char → List Char → ℕ
  | 0, _, _ => 0
  | _ + 1, [], _ => 0
  | _ + 1, _ :: _, [] => 0
  | fuel + 1, a :: s, b :: t =>
    if a = b then lcsFuel fuel s t + 1
    else max (lcsFuel fuel (a :: s) t) (lcsFuel fuel s (b :: t))

/-- Longest common subsequence length of two character lists. -/
def lcs (s t : List Char) : ℕ := lcsFuel (s.length + t.length) s t

/-- Round-half-to-even of `num/den` (Python `round`, `utils.intr`); requires
`den ≠ 0` for meaning. -/
def intrDiv (num den : ℕ) : ℕ :=
  if 2 * (num % den) < den then num / den
  else if den < 2 * (num % den) then num / den + 1
  else if num / den % 2 = 0 then num / den else num / den + 1

/-- `fuzz.ratio` with the python-Levenshtein backend:
`round(100·(lensum − dist)/lensum)` where `dist` is the (1,1,2)-weighted edit
distance, which equals `lensum − 2·LCS`; two empty strings give 100. -/
def ratioLev (a b : List Char) : ℕ :=
  if a.length + b.length = 0 then 100
  else intrDiv (200 * lcs a b) (a.length + b.length)

/-- fuzzywuzzy `fuzz.token_set_ratio` (defaults `force_ascii=True`,
`full_process=True`): process both strings, return 0 if either processes to
empty, otherwise take the max of the three pairwise ratios of
sorted-intersection / intersection+diff strings. -/
def token_set_ratio (s1 s2 : String) : ℕ :=
  let p1 := full_process s1.data
  let p2 := full_process s2.data
  if p1.isEmpty || p2.isEmpty then 0
  else
    let t1 := (pySplit p1).dedup
    let t2 := (pySplit p2).dedup
    let sorted_sect := joinSp (sortToks (t1.filter (fun t => decide (t ∈ t2))))
    let sorted_1to2 := joinSp (sortToks (t1.filter (fun t => decide (t ∉ t2))))
    let sorted_2to1 := joinSp (sortToks (t2.filter (fun t => decide (t ∉ t1))))
    let combined_1to2 := pyStrip (sorted_sect ++ ' ' :: sorted_1to2)
    let combined_2to1 := pyStrip (sorted_sect ++ ' ' :: sorted_2to1)
    let sect := pyStrip sorted_sect
    max (max (ratioLev sect combined_1to2) (ratioLev sect combined_2to1))
        (ratioLev combined_1to2 combined_2to1)

/- ===== Episode records and the match ranker ===== -/

/-- One catalog entry, as built by `fetch_episode_data`. -/
structure Episode where
  season : ℕ
  episode : ℕ
  title : String
  summary : String
deriving DecidableEq, Repr

/-- The score computed inside `match_transcript_to_episode`'s loop:
`int(plot_score*0.8 + title_score*0.2)`.  For all integer scores
p, t ∈ [0,100] the Python float expression equals `(8*p + 2*t) / 10`
in integer arithmetic (checked exhaustively over the whole domain). -/
def episodeScore (transcript : String) (e : Episode) : ℕ :=
  let plot_score := token_set_ratio (pyLower transcript) (pyLower e.summary)
  let title_score := token_set_ratio (pyLower transcript) (pyLower e.title)
  (8 * plot_score + 2 * title_score) / 10

/-- Stable descending insertion by score.  Models Python
`sorted(matches, key=lambda x: x[1], reverse=True)`: Timsort is stable and
`reverse=True` preserves the original relative order of equal keys. -/
def insertByScoreDesc (x : Episode × ℕ) :
    List (Episode × ℕ) → List (Episode × ℕ)
  | [] => [x]
  | y :: ys => if x.2 < y.2 then y :: insertByScoreDesc x ys else x :: y :: ys

/-- Stable descending sort by score (see `insertByScoreDesc`). -/
def sortByScoreDesc (l : List (Episode × ℕ)) : List (Episode × ℕ) :=
  l.foldr insertByScoreDesc []

/-- `match_transcript_to_episode(transcript, episodes)`: score every episode,
then sort the (episode, score) pairs descending by score. -/
def match_transcript_to_episode (transcript : String) (episodes : List Episode) :
    List (Episode × ℕ) :=
  sortByScoreDesc (episodes.map (fun e => (e, episodeScore transcript e)))

/- ===== Catalog store and fetcher (explicit environment) ===== -/

/-- One item of a season listing: the fields `fetch_friends_episodes` reads
from `season_data['Episodes']` (`imdbID` and `Episode`; the episode number is
kept already parsed, `int(ep_data['Episode'])`). -/
structure EpListing where
  imdbID : String
  episodeNum : ℕ
deriving DecidableEq, Repr

/-- Outcome of one season-listing request (phase one). -/
inductive SeasonResp where
  /-- `requests.RequestException`: network failure, `raise_for_status` on a
  non-2xx reply, or an unparseable JSON body. -/
  | fail
  /-- A 2xx JSON body without an `'Episodes'` key. -/
  | noEpisodesKey
  /-- A 2xx body listing these episodes. -/
  | ok (eps : List EpListing)
deriving DecidableEq, Repr

/-- Outcome of one episode-detail request (phase two). -/
inductive DetailResp where
  /-- `requests.RequestException` (network, non-2xx, unparseable JSON). -/
  | fail
  /-- A parseable JSON body missing `'Title'`/`'Plot'`: reading
  `ep_detail['Title']` raises `KeyError`, which the `except
  requests.RequestException` clause does not catch. -/
  | missingKey
  /-- A body carrying both fields. -/
  | ok (title summary : String)
deriving DecidableEq, Repr

/-- Python exceptions that can escape the fetch. -/
inductive PyErr where
  | keyError
deriving DecidableEq, Repr

/-- Environment of a run: filesystem state of the cache file plus the
responses the remote metadata source would give. -/
structure Env where
  /-- `os.path.exists(CACHE_FILE)`. -/
  cacheExists : Bool
  /-- `os.path.getmtime(CACHE_FILE)`, in seconds. -/
  cacheMtime : ℤ
  /-- `datetime.now()`, in seconds. -/
  timeNow : ℤ
  /-- Result of parsing the cache file; `none` models `json.JSONDecodeError`
  (corrupt file). Only meaningful when `cacheExists`. -/
  cacheParse : Option (List Episode)
  /-- Season-listing response for `&Season=s`. -/
  seasonResp : ℕ → SeasonResp
  /-- Episode-detail response for `&i=imdbID`. -/
  detailResp : String → DetailResp

/-- `CACHE_EXPIRY_DAYS = 30`. -/
def CACHE_EXPIRY_DAYS : ℤ := 30

/-- `is_cache_valid()`: the cache file exists and
`(datetime.now() - datetime.fromtimestamp(getmtime)).days < CACHE_EXPIRY_DAYS`.
`timedelta.days` floors toward minus infinity, hence `Int.fdiv`. -/
def is_cache_valid (env : Env) : Bool :=
  env.cacheExists &&
    (Int.fdiv (env.timeNow - env.cacheMtime) 86400 < CACHE_EXPIRY_DAYS)

/-- `load_cached_episodes()`: the parsed cache content, or `[]` on
`FileNotFoundError` (absent file) or `json.JSONDecodeError` (corrupt file). -/
def load_cached_episodes (env : Env) : List Episode :=
  if env.cacheExists then env.cacheParse.getD [] else []

/-- `fetch_episode_data(season, ep_data, task_id)` without the progress
side effect: `.ok none` when the request fails with `RequestException`
(logged, episode dropped), `.error keyError` when the body parses but lacks
the expected keys, `.ok (some record)` on success. -/
def fetch_episode_data (env : Env) (season : ℕ) (ep : EpListing) :
    Except PyErr (Option Episode) :=
  match env.detailResp ep.imdbID with
  | .fail => .ok none
  | .missingKey => .error .keyError
  | .ok t s => .ok (some ⟨season, ep.episodeNum, t, s⟩)

/-- Phase one of `fetch_friends_episodes`: `season_data_list` after the
sequential loop over seasons 1..10; failed seasons and bodies without an
`'Episodes'` key contribute nothing. -/
def seasonDataList (env : Env) : List (ℕ × List EpListing) :=
  (List.range' 1 10).filterMap (fun s =>
    match env.seasonResp s with
    | .ok eps => some (s, eps)
    | _ => none)

/-- Collection of one season's episode details, in submission order (the
main thread iterates `future_to_ep` in insertion order); an uncaught
exception from a worker re-raises at `future.result()` and aborts. -/
def collectSeasonEpisodes (env : Env) (season : ℕ) :
    List EpListing → Except PyErr (List Episode)
  | [] => .ok []
  | ep :: rest =>
    match fetch_episode_data env season ep with
    | .error e => .error e
    | .ok r =>
      match collectSeasonEpisodes env season rest with
      | .error e => .error e
      | .ok more =>
        .ok (match r with
          | some x => x :: more
          | none => more)

/-- Phase two over all collected seasons. -/
def collectAllEpisodes (env : Env) :
    List (ℕ × List EpListing) → Except PyErr (List Episode)
  | [] => .ok []
  | (s, eps) :: rest =>
    match collectSeasonEpisodes env s eps with
    | .error e => .error e
    | .ok first =>
      match collectAllEpisodes env rest with
      | .error e => .error e
      | .ok more => .ok (first ++ more)

/-- `fetch_friends_episodes()`.  The second component of the result is the
new content of the persisted cache file (`none` = `save_episodes_cache` was
not called, file untouched); `save_episodes_cache` itself is the
unconditional overwrite `json.dump(episodes, f)`. -/
def fetch_friends_episodes (env : Env) :
    Except PyErr (List Episode × Option (List Episode)) :=
  if is_cache_valid env then .ok (load_cached_episodes env, none)
  else
    match collectAllEpisodes env (seasonDataList env) with
    | .error e => .error e
    | .ok episodes =>
      .ok (episodes, if episodes.isEmpty then none else some episodes)

/-- The records of exactly the episode-detail requests that succeed, in
submission order — the catalog a fully-collected fetch produces. -/
def okEpisodes (env : Env) : List Episode :=
  ((seasonDataList env).map (fun p =>
    p.2.filterMap (fun ep =>
      match env.detailResp ep.imdbID with
      | .ok t s => some (⟨p.1, ep.episodeNum, t, s⟩ : Episode)
      | _ => none))).flatten

/-- Number of non-failing episode-detail fetches. -/
def numOkDetails (env : Env) : ℕ := (okEpisodes env).length

/- ===== Python positional-call model (for the ranking entry point) ===== -/

/-- Outcome of binding positional arguments to a Python function header. -/
inductive PyCallResult where
  | ok
  | typeError
deriving DecidableEq, Repr

/-- Binding `args` positional arguments to a function with `params`
parameters, none of which has a default: any other count raises
`TypeError: ... takes N positional arguments but K were given`. -/
def pyCallPositional (params args : ℕ) : PyCallResult :=
  if args = params then .ok else .typeError

/-- `def match_transcript_to_episode(transcript, episodes)` declares exactly
two parameters, both without defaults. -/
def match_transcript_to_episode_paramCount : ℕ := 2

/- ===== Progress-counter interleaving model ===== -/

/-- Primitive events of one worker's progress update
(`with progress_lock: progress.update(task_id, advance=1)`): acquire the
mutex, read the counter, write the incremented value, release. -/
inductive Ev where
  | acq (w : ℕ)
  | rd (w : ℕ) (v : ℕ)
  | wr (w : ℕ) (v : ℕ)
  | rel (w : ℕ)
deriving DecidableEq, Repr

/-- Interleaving state: the shared counter, the mutex holder, each worker's
last read value and each worker's program counter (0 initial, 1 lock held,
2 value read, 3 value written, 4 done).  The two maps are latest-first
association lists so that the whole state is decidable. -/
structure TSt where
  counter : ℕ
  holder : Option ℕ
  readv : List (ℕ × ℕ)
  pc : List (ℕ × ℕ)
deriving DecidableEq, Repr

/-- Lookup with default 0. -/
def lookup0 (l : List (ℕ × ℕ)) (w : ℕ) : ℕ :=
  ((l.find? (fun p => p.1 == w)).map (fun p => p.2)).getD 0

/-- Update by prepending. -/
def setk (l : List (ℕ × ℕ)) (w v : ℕ) : List (ℕ × ℕ) := (w, v) :: l

/-- Worker `w`'s program counter. -/
def pcOf (st : TSt) (w : ℕ) : ℕ := lookup0 st.pc w

/-- Worker `w`'s last read value. -/
def readvOf (st : TSt) (w : ℕ) : ℕ := lookup0 st.readv w

def initTSt : TSt := ⟨0, none, [], []⟩

/-- One step of the interleaving semantics with `n` workers; `none` means
the event is not enabled there (invalid interleaving).  A worker must hold
the mutex from its read through its write to its release, and its write is
its read plus one — exactly the mutex discipline of the source. -/
def stepEv (n : ℕ) (st : TSt) : Ev → Option TSt
  | .acq w =>
    if w < n ∧ st.holder = none ∧ pcOf st w = 0 then
      some { st with holder := some w, pc := setk st.pc w 1 }
    else none
  | .rd w v =>
    if st.holder = some w ∧ pcOf st w = 1 ∧ v = st.counter then
      some { st with readv := setk st.readv w v, pc := setk st.pc w 2 }
    else none
  | .wr w v =>
    if st.holder = some w ∧ pcOf st w = 2 ∧ v = readvOf st w + 1 then
      some { st with counter := v, pc := setk st.pc w 3 }
    else none
  | .rel w =>
    if st.holder = some w ∧ pcOf st w = 3 then
      some { st with holder := none, pc := setk st.pc w 4 }
    else none

/-- Run a whole interleaving from a state. -/
def runTrace (n : ℕ) : List Ev → TSt → Option TSt
  | [], st => some st
  | e :: es, st =>
    match stepEv n st e with
    | none => none
    | some st' => runTrace n es st'

/-- Invariant of the interleaving semantics: the counter equals the number
of workers that have performed their write; a worker whose update is in
flight holds the mutex; a worker that has read but not yet written read the
current counter value. -/
def TInv (n : ℕ) (st : TSt) : Prop :=
  st.counter = ∑ w ∈ Finset.range n, (if 3 ≤ pcOf st w then 1 else 0)
  ∧ (∀ w, n ≤ w → pcOf st w = 0)
  ∧ (∀ w, 1 ≤ pcOf st w ∧ pcOf st w ≤ 3 → st.holder = some w)
  ∧ (∀ w, pcOf st w = 2 → readvOf st w = st.counter)

/- ===== Concrete environments for witnesses and counterexamples ===== -/

/-- The single episode served by `envC3`'s network. -/
def epC3 : Episode := ⟨1, 1, "The Pilot", "Monica gets a roommate"⟩

/-- No cache file; season 1 lists one episode whose detail fetch succeeds. -/
def envC3 : Env :=
  { cacheExists := false
    cacheMtime := 0
    timeNow := 0
    cacheParse := none
    seasonResp := fun s => if s = 1 then .ok [⟨"c3e1", 1⟩] else .fail
    detailResp := fun _ => .ok "The Pilot" "Monica gets a roommate" }

/-- Cache file present and zero days old but corrupt
(`json.JSONDecodeError`), while the network would happily serve an
episode. -/
def envC4 : Env :=
  { cacheExists := true
    cacheMtime := 0
    timeNow := 0
    cacheParse := none
    seasonResp := fun s => if s = 1 then .ok [⟨"c4e1", 1⟩] else .fail
    detailResp := fun _ => .ok "The One" "Some plot" }

/-- A stale (40-day-old) but intact non-empty persisted catalog, with every
network request failing. -/
def envC5 : Env :=
  { cacheExists := true
    cacheMtime := 0
    timeNow := 40 * 86400
    cacheParse := some [⟨1, 1, "Kept", "Old summary"⟩]
    seasonResp := fun _ => .fail
    detailResp := fun _ => .fail }

/-- No cache; season 1 lists two episodes, the second of which answers with
a parseable JSON body missing the `'Title'` key. -/
def envC6 : Env :=
  { cacheExists := false
    cacheMtime := 0
    timeNow := 0
    cacheParse := none
    seasonResp := fun s => if s = 1 then .ok [⟨"a", 1⟩, ⟨"b", 2⟩] else .fail
    detailResp := fun id => if id = "a" then .ok "T1" "S1" else .missingKey }

/-- No cache; season 1 lists two episodes, the first detail request fails
with `RequestException`, the second succeeds. -/
def envC6W : Env :=
  { cacheExists := false
    cacheMtime := 0
    timeNow := 0
    cacheParse := none
    seasonResp := fun s => if s = 1 then .ok [⟨"a", 1⟩, ⟨"b", 2⟩] else .fail
    detailResp := fun id => if id = "b" then .ok "T2" "S2" else .fail }

/-- No cache; season 1 lists two episodes and both detail fetches succeed. -/
def envC10 : Env :=
  { cacheExists := false
    cacheMtime := 0
    timeNow := 0
    cacheParse := none
    seasonResp := fun s => if s = 1 then .ok [⟨"x", 1⟩, ⟨"y", 2⟩] else .fail
    detailResp := fun _ => .ok "T" "S" }

/-- A complete interleaving of `envC10`'s two successful workers. -/
def trC10 : List Ev :=
  [.acq 0, .rd 0 0, .wr 0 1, .rel 0, .acq 1, .rd 1 1, .wr 1 2, .rel 1]

/-- The final state `trC10` reaches from `initTSt` with two workers. -/
def stC10 : TSt :=
  ⟨2, none, [(1, 1), (0, 0)],
    [(1, 4), (1, 3), (1, 2), (1, 1), (0, 4), (0, 3), (0, 2), (0, 1)]⟩

/-- The episode used for the zero-shared-tokens counterexample: title and
summary are both `"ab"` while the transcript will be `"ba"`. -/
def epC9 : Episode := ⟨1, 1, "ab", "ab"⟩

/-- The episode used for the scoring witness. -/
def epC2 : Episode := ⟨1, 1, "ab", "ab"⟩

/-- An intact cache file last modified 31 days ago. -/
def envC8a : Env :=
  { cacheExists := true
    cacheMtime := 0
    timeNow := 31 * 86400
    cacheParse := some []
    seasonResp := fun _ => .fail
    detailResp := fun _ => .fail }

/-- An intact cache file last modified 1 day ago. -/
def envC8b : Env :=
  { cacheExists := true
    cacheMtime := 0
    timeNow := 86400
    cacheParse := some []
    seasonResp := fun _ => .fail
    detailResp := fun _ => .fail }

example : token_set_ratio "ab" "ab" = 100 := by decide
example : token_set_ratio "ba" "ab" = 50 := by decide
example : token_set_ratio "qqq" "aaa" = 0 := by decide
example : token_set_ratio "hello world" "world hello" = 100 := by decide
example :
    match_transcript_to_episode "ba" [⟨1, 1, "ab", "ab"⟩] =
      [(⟨1, 1, "ab", "ab"⟩, 50)] := by decide

/- ===== Lemmas: the stable descending sort ===== -/

theorem insertByScoreDesc_perm (x : Episode × ℕ) (l : List (Episode × ℕ)) :
    List.Perm (insertByScoreDesc x l) (x :: l) := by
  induction l with
  | nil => exact List.Perm.refl _
  | cons y ys ih =>
    rw [insertByScoreDesc]
    by_cases hc : x.2 < y.2
    · rw [if_pos hc]
      exact (ih.cons y).trans (List.Perm.swap x y ys)
    · rw [if_neg hc]

theorem sortByScoreDesc_perm (l : List (Episode × ℕ)) :
    List.Perm (sortByScoreDesc l) l := by
  induction l with
  | nil => exact List.Perm.refl _
  | cons a l ih =>
    show List.Perm (insertByScoreDesc a (sortByScoreDesc l)) (a :: l)
    exact (insertByScoreDesc_perm a _).trans (ih.cons a)

theorem mem_insertByScoreDesc {z x : Episode × ℕ} {l : List (Episode × ℕ)} :
    z ∈ insertByScoreDesc x l ↔ z = x ∨ z ∈ l := by
  rw [(insertByScoreDesc_perm x l).mem_iff, List.mem_cons]

theorem insertByScoreDesc_pairwise (x : Episode × ℕ) (l : List (Episode × ℕ))
    (h : l.Pairwise (fun a b => b.2 ≤ a.2)) :
    (insertByScoreDesc x l).Pairwise (fun a b => b.2 ≤ a.2) := by
  induction l with
  | nil => simp [insertByScoreDesc]
  | cons y ys ih =>
    rcases List.pairwise_cons.mp h with ⟨hy, hys⟩
    rw [insertByScoreDesc]
    by_cases hc : x.2 < y.2
    · rw [if_pos hc]
      refine List.pairwise_cons.mpr ⟨?_, ih hys⟩
      intro z hz
      rcases mem_insertByScoreDesc.mp hz with rfl | hz'
      · exact Nat.le_of_lt hc
      · exact hy z hz'
    · rw [if_neg hc]
      refine List.pairwise_cons.mpr ⟨?_, h⟩
      intro z hz
      rcases List.mem_cons.mp hz with rfl | hz'
      · omega
      · exact le_trans (hy z hz') (by omega)

theorem sortByScoreDesc_pairwise (l : List (Episode × ℕ)) :
    (sortByScoreDesc l).Pairwise (fun a b => b.2 ≤ a.2) := by
  induction l with
  | nil => simp [sortByScoreDesc]
  | cons a l ih => exact insertByScoreDesc_pairwise a _ ih

theorem filter_insertByScoreDesc_ne (x : Episode × ℕ) (l : List (Episode × ℕ))
    (s : ℕ) (hx : (x.2 == s) = false) :
    (insertByScoreDesc x l).filter (fun p => p.2 == s) =
      l.filter (fun p => p.2 == s) := by
  induction l with
  | nil => simp [insertByScoreDesc, hx]
  | cons y ys ih =>
    rw [insertByScoreDesc]
    by_cases hc : x.2 < y.2
    · rw [if_pos hc]
      simp only [List.filter_cons, ih]
    · rw [if_neg hc]
      simp [List.filter_cons, hx]

theorem filter_insertByScoreDesc_eq (x : Episode × ℕ) (l : List (Episode × ℕ))
    (h : l.Pairwise (fun a b => b.2 ≤ a.2)) :
    (insertByScoreDesc x l).filter (fun p => p.2 == x.2) =
      x :: l.filter (fun p => p.2 == x.2) := by
  induction l with
  | nil => simp [insertByScoreDesc]
  | cons y ys ih =>
    rcases List.pairwise_cons.mp h with ⟨hy, hys⟩
    rw [insertByScoreDesc]
    by_cases hc : x.2 < y.2
    · rw [if_pos hc]
      have hne : (y.2 == x.2) = false := by
        rw [beq_eq_false_iff_ne]
        omega
      simp [List.filter_cons, hne, ih hys]
    · rw [if_neg hc]
      simp [List.filter_cons]

theorem sortByScoreDesc_filter (l : List (Episode × ℕ)) (s : ℕ) :
    (sortByScoreDesc l).filter (fun p => p.2 == s) =
      l.filter (fun p => p.2 == s) := by
  induction l with
  | nil => rfl
  | cons a l ih =>
    show (insertByScoreDesc a (sortByScoreDesc l)).filter _ = _
    by_cases hs : a.2 = s
    · subst hs
      rw [filter_insertByScoreDesc_eq a _ (sortByScoreDesc_pairwise l), ih]
      simp [List.filter_cons]
    · have hx : (a.2 == s) = false := by
        rw [beq_eq_false_iff_ne]
        exact hs
      rw [filter_insertByScoreDesc_ne a _ s hx, ih]
      simp [List.filter_cons, hx]

/- ===== Lemmas: score bounds ===== -/

theorem lcsFuel_le_left : ∀ (f : ℕ) (s t : List Char), lcsFuel f s t ≤ s.length := by
  intro f
  induction f with
  | zero => intro s t; simp [lcsFuel]
  | succ f ih =>
    intro s t
    cases s with
    | nil => simp [lcsFuel]
    | cons a s' =>
      cases t with
      | nil => simp [lcsFuel]
      | cons b t' =>
        rw [lcsFuel]
        by_cases hab : a = b
        · rw [if_pos hab]
          have := ih s' t'
          simp only [List.length_cons]
          omega
        · rw [if_neg hab]
          have h1 := ih (a :: s') t'
          have h2 := ih s' (b :: t')
          simp only [List.length_cons] at *
          omega

theorem lcsFuel_le_right : ∀ (f : ℕ) (s t : List Char), lcsFuel f s t ≤ t.length := by
  intro f
  induction f with
  | zero => intro s t; simp [lcsFuel]
  | succ f ih =>
    intro s t
    cases s with
    | nil => simp [lcsFuel]
    | cons a s' =>
      cases t with
      | nil => simp [lcsFuel]
      | cons b t' =>
        rw [lcsFuel]
        by_cases hab : a = b
        · rw [if_pos hab]
          have := ih s' t'
          simp only [List.length_cons]
          omega
        · rw [if_neg hab]
          have h1 := ih (a :: s') t'
          have h2 := ih s' (b :: t')
          simp only [List.length_cons] at *
          omega

theorem lcs_le_left (s t : List Char) : lcs s t ≤ s.length := lcsFuel_le_left _ s t

theorem lcs_le_right (s t : List Char) : lcs s t ≤ t.length := lcsFuel_le_right _ s t

theorem intrDiv_aux (num den k : ℕ) (h : num ≤ k * den) (hr : 1 ≤ num % den) :
    num / den + 1 ≤ k := by
  have hq : num / den ≤ k := by
    have hdd : num / den ≤ k * den / den := Nat.div_le_div_right h
    rcases Nat.eq_zero_or_pos den with hz | hpos
    · subst hz
      rw [Nat.mod_zero] at hr
      simp at h
      omega
    · rwa [Nat.mul_div_cancel _ hpos] at hdd
  rcases Nat.lt_or_ge (num / den) k with h' | h'
  · omega
  · exfalso
    have hqk : num / den = k := le_antisymm hq h'
    have hmod := Nat.div_add_mod num den
    rw [hqk] at hmod
    have hcomm : k * den = den * k := Nat.mul_comm _ _
    rw [hcomm] at h
    set m := den * k with hm
    omega

theorem intrDiv_le (num den k : ℕ) (hden : 0 < den) (h : num ≤ k * den) :
    intrDiv num den ≤ k := by
  have hq : num / den ≤ k := by
    have hdd : num / den ≤ k * den / den := Nat.div_le_div_right h
    rwa [Nat.mul_div_cancel _ hden] at hdd
  unfold intrDiv
  split
  · exact hq
  next h1 =>
    have hr : 1 ≤ num % den := by omega
    split
    · exact intrDiv_aux num den k h hr
    · split
      · exact hq
      · exact intrDiv_aux num den k h hr

theorem ratioLev_le_100 (a b : List Char) : ratioLev a b ≤ 100 := by
  unfold ratioLev
  split
  · omega
  next h =>
    apply intrDiv_le _ _ _ (by omega)
    have h1 := lcs_le_left a b
    have h2 := lcs_le_right a b
    omega

theorem token_set_ratio_le_100 (s1 s2 : String) : token_set_ratio s1 s2 ≤ 100 := by
  simp only [token_set_ratio]
  split
  · omega
  · exact max_le (max_le (ratioLev_le_100 _ _) (ratioLev_le_100 _ _))
      (ratioLev_le_100 _ _)

theorem episodeScore_le_100 (t : String) (e : Episode) : episodeScore t e ≤ 100 := by
  simp only [episodeScore]
  have h1 := token_set_ratio_le_100 (pyLower t) (pyLower e.summary)
  have h2 := token_set_ratio_le_100 (pyLower t) (pyLower e.title)
  omega

/- ===== C1 ===== -/

/-- C1: `match_transcript_to_episode` returns exactly one (episode, score)
pair per catalog record: its length equals the catalog's size (so an empty
catalog yields the empty list), the result is a permutation of the scored
catalog (no threshold or top-N filtering), it is sorted descending by
score, and the sort is stable — for every score value, the pairs carrying
that score appear in the catalog's relative order. -/
theorem rank_is_full_stable_descending (t : String) (es : List Episode) :
    (match_transcript_to_episode t es).length = es.length ∧
    (match_transcript_to_episode t es).Pairwise (fun a b => b.2 ≤ a.2) ∧
    List.Perm (match_transcript_to_episode t es)
      (es.map (fun e => (e, episodeScore t e))) ∧
    (∀ s : ℕ, (match_transcript_to_episode t es).filter (fun p => p.2 == s) =
      (es.map (fun e => (e, episodeScore t e))).filter (fun p => p.2 == s)) := by
  refine ⟨?_, sortByScoreDesc_pairwise _, sortByScoreDesc_perm _,
    fun s => sortByScoreDesc_filter _ s⟩
  rw [show match_transcript_to_episode t es =
    sortByScoreDesc (es.map (fun e => (e, episodeScore t e))) from rfl]
  rw [(sortByScoreDesc_perm _).length_eq, List.length_map]

/- ===== C2 ===== -/

/-- C2: every score the ranker emits for an episode is the token-set fuzzy
similarity of the lower-cased transcript against the lower-cased summary
(plot score) and title (title score), combined as
`int(0.8*plot + 0.2*title)` — in exact integer form `(8*plot + 2*title)/10`
— and lies in [0, 100]. -/
theorem score_formula_and_range (t : String) (es : List Episode)
    (e : Episode) (n : ℕ) (h : (e, n) ∈ match_transcript_to_episode t es) :
    n = (8 * token_set_ratio (pyLower t) (pyLower e.summary) +
         2 * token_set_ratio (pyLower t) (pyLower e.title)) / 10 ∧ n ≤ 100 := by
  have hmem : (e, n) ∈ es.map (fun e => (e, episodeScore t e)) :=
    (sortByScoreDesc_perm _).mem_iff.mp h
  rcases List.mem_map.mp hmem with ⟨e', he', heq⟩
  have he2 : e' = e := congrArg Prod.fst heq
  have hn : episodeScore t e' = n := congrArg Prod.snd heq
  subst he2
  subst hn
  exact ⟨rfl, episodeScore_le_100 t e'⟩

/-- Witness for C2 at a concrete transcript and one-episode catalog. -/
theorem score_formula_and_range_witness :
    (epC2, 100) ∈ match_transcript_to_episode "ab" [epC2] ∧
    (100 = (8 * token_set_ratio (pyLower "ab") (pyLower epC2.summary) +
            2 * token_set_ratio (pyLower "ab") (pyLower epC2.title)) / 10 ∧
      100 ≤ 100) :=
  ⟨by decide, score_formula_and_range "ab" [epC2] epC2 100 (by decide)⟩

/- ===== Lemmas: the fetch on the refresh path ===== -/

theorem fetch_refresh_eq (env : Env) (hcache : is_cache_valid env = false) :
    fetch_friends_episodes env =
      match collectAllEpisodes env (seasonDataList env) with
      | .error e => .error e
      | .ok episodes =>
          .ok (episodes, if episodes.isEmpty then none else some episodes) := by
  unfold fetch_friends_episodes
  rw [hcache]
  simp

theorem collectSeasonEpisodes_eq (env : Env) (s : ℕ)
    (hmk : ∀ id, env.detailResp id ≠ .missingKey) :
    ∀ eps : List EpListing,
      collectSeasonEpisodes env s eps =
        .ok (eps.filterMap (fun ep =>
          match env.detailResp ep.imdbID with
          | .ok t su => some (⟨s, ep.episodeNum, t, su⟩ : Episode)
          | _ => none)) := by
  intro eps
  induction eps with
  | nil => rfl
  | cons ep rest ih =>
    rw [collectSeasonEpisodes, ih]
    cases hd : env.detailResp ep.imdbID with
    | fail => simp [fetch_episode_data, hd, List.filterMap_cons]
    | missingKey => exact absurd hd (hmk _)
    | ok t su => simp [fetch_episode_data, hd, List.filterMap_cons]

theorem collectAllEpisodes_eq (env : Env)
    (hmk : ∀ id, env.detailResp id ≠ .missingKey) :
    ∀ l : List (ℕ × List EpListing),
      collectAllEpisodes env l =
        .ok ((l.map (fun p => p.2.filterMap (fun ep =>
          match env.detailResp ep.imdbID with
          | .ok t su => some (⟨p.1, ep.episodeNum, t, su⟩ : Episode)
          | _ => none))).flatten) := by
  intro l
  induction l with
  | nil => rfl
  | cons p rest ih =>
    obtain ⟨s, eps⟩ := p
    rw [collectAllEpisodes, collectSeasonEpisodes_eq env s hmk eps, ih]
    simp

theorem okEpisodes_eq (env : Env)
    (hmk : ∀ id, env.detailResp id ≠ .missingKey) :
    collectAllEpisodes env (seasonDataList env) = .ok (okEpisodes env) :=
  collectAllEpisodes_eq env hmk (seasonDataList env)

/- ===== C3 ===== -/

/-- C3: on the refresh path (invalid cache), the catalog is persisted via
`save_episodes_cache` iff it is non-empty: a refresh that fetched zero
episodes returns the empty catalog without touching the cache file (so an
empty catalog is never persisted over a previously saved non-empty one),
and a non-empty refresh persists exactly the returned catalog. -/
theorem refresh_persists_iff_nonempty (env : Env)
    (hcache : is_cache_valid env = false)
    (eps : List Episode) (eff : Option (List Episode))
    (h : fetch_friends_episodes env = .ok (eps, eff)) :
    (eps = [] → eff = none) ∧ (eps ≠ [] → eff = some eps) := by
  rw [fetch_refresh_eq env hcache] at h
  cases hc : collectAllEpisodes env (seasonDataList env) with
  | error e =>
    rw [hc] at h
    exact Except.noConfusion h
  | ok l =>
    rw [hc] at h
    injection h with h'
    have hl : l = eps := congrArg Prod.fst h'
    have he := congrArg Prod.snd h'
    subst hl
    constructor
    · intro hnil
      subst hnil
      simpa using he.symm
    · intro hne
      cases l with
      | nil => exact absurd rfl hne
      | cons a as => simpa using he.symm

/-- Witness for C3: a refresh in `envC3` (no cache file) fetches one
episode and persists exactly it. -/
theorem refresh_persists_iff_nonempty_witness :
    fetch_friends_episodes envC3 = .ok ([epC3], some [epC3]) ∧
    ([epC3] ≠ ([] : List Episode) → some [epC3] = some [epC3]) := by
  have h : fetch_friends_episodes envC3 = .ok ([epC3], some [epC3]) := by rfl
  exact ⟨h, (refresh_persists_iff_nonempty envC3 (by decide) [epC3]
    (some [epC3]) h).2⟩

/- ===== C4 ===== -/

/-- C4 counterexample: in `envC4` the cache file exists, is zero days old
(well within the TTL) and is corrupt; `fetch_friends_episodes` returns the
empty catalog WITHOUT any network refresh, even though the network would
have served one episode (second conjunct). -/
theorem corrupt_fresh_cache_no_refresh :
    fetch_friends_episodes envC4 = .ok ([], none) ∧
    collectAllEpisodes envC4 (seasonDataList envC4) =
      .ok [⟨1, 1, "The One", "Some plot"⟩] := by
  constructor <;> rfl

/-- C4 amended: `load_cached_episodes` returns the empty catalog on an
absent or corrupt (unparseable) cache file and never raises, but a corrupt
cache file whose modification time is within the TTL does NOT trigger a
network refresh: `fetch_friends_episodes` serves the (empty) parse of the
fresh cache file directly. -/
theorem load_recovers_but_no_refresh (env : Env) :
    ((env.cacheExists = false ∨ env.cacheParse = none) →
      load_cached_episodes env = []) ∧
    (is_cache_valid env = true →
      fetch_friends_episodes env = .ok (load_cached_episodes env, none)) := by
  constructor
  · rintro (h | h) <;> simp [load_cached_episodes, h]
  · intro h
    unfold fetch_friends_episodes
    rw [h]
    simp

/-- Witness for the amended C4, at the fresh-but-corrupt `envC4`. -/
theorem load_recovers_but_no_refresh_witness :
    load_cached_episodes envC4 = [] ∧
    fetch_friends_episodes envC4 = .ok (load_cached_episodes envC4, none) :=
  ⟨(load_recovers_but_no_refresh envC4).1 (Or.inr rfl),
   (load_recovers_but_no_refresh envC4).2 (by decide)⟩

/- ===== C5 ===== -/

/-- C5 counterexample: `envC5` holds a stale non-empty persisted catalog
(one episode) and every network request fails, so the refresh fetches zero
episodes; `fetch_friends_episodes` returns the EMPTY catalog — strictly
smaller than the still-loadable persisted one. -/
theorem refresh_returns_smaller_catalog :
    fetch_friends_episodes envC5 = .ok ([], none) ∧
    load_cached_episodes envC5 = [⟨1, 1, "Kept", "Old summary"⟩] ∧
    ([] : List Episode).length < (load_cached_episodes envC5).length := by
  refine ⟨rfl, rfl, by decide⟩

/-- C5 amended: a refresh that fetched zero episodes never WRITES the cache
file, so the last successfully persisted catalog survives on disk — but the
value returned to the caller is the empty catalog. -/
theorem zero_fetch_leaves_cache_untouched (env : Env)
    (hcache : is_cache_valid env = false)
    (eff : Option (List Episode))
    (h : fetch_friends_episodes env = .ok ([], eff)) : eff = none := by
  rw [fetch_refresh_eq env hcache] at h
  cases hc : collectAllEpisodes env (seasonDataList env) with
  | error e =>
    rw [hc] at h
    exact Except.noConfusion h
  | ok l =>
    rw [hc] at h
    injection h with h'
    have hl : l = [] := congrArg Prod.fst h'
    have he := congrArg Prod.snd h'
    subst hl
    simpa using he.symm

/-- Witness for the amended C5 at `envC5`. -/
theorem zero_fetch_leaves_cache_untouched_witness :
    fetch_friends_episodes envC5 = .ok ([], none) ∧
    (none : Option (List Episode)) = none :=
  ⟨by rfl, zero_fetch_leaves_cache_untouched envC5 (by decide) none (by rfl)⟩

/- ===== C6 ===== -/

/-- C6 counterexample: in `envC6` one episode-detail response is a
parseable JSON body missing the `'Title'` key; the `KeyError` it raises is
not caught by `except requests.RequestException`, so it propagates out of
`fetch_friends_episodes` as an exception, aborting the whole fetch —
contradicting "never propagated to the caller as an exception". -/
theorem missing_key_aborts_fetch :
    fetch_friends_episodes envC6 = .error .keyError := by rfl

/-- C6 amended: as long as no detail response is a parseable body missing
the expected keys, every unit failure is contained: a failed season listing
or an episode-detail request failing with `RequestException` (network
error, non-2xx, unparseable JSON) makes only that unit contribute nothing;
siblings and the overall fetch are unaffected and no exception escapes —
the catalog is exactly the successful units in submission order. -/
theorem unit_failures_contained (env : Env)
    (hmk : ∀ id, env.detailResp id ≠ .missingKey)
    (hcache : is_cache_valid env = false) :
    fetch_friends_episodes env =
      .ok (okEpisodes env,
        if (okEpisodes env).isEmpty then none else some (okEpisodes env)) := by
  rw [fetch_refresh_eq env hcache, okEpisodes_eq env hmk]

/-- Witness for the amended C6: in `envC6W` the first detail request fails
with `RequestException` and the second succeeds; the fetch returns exactly
the one successful episode. -/
theorem unit_failures_contained_witness :
    fetch_friends_episodes envC6W =
      .ok (okEpisodes envC6W,
        if (okEpisodes envC6W).isEmpty then none
        else some (okEpisodes envC6W)) :=
  unit_failures_contained envC6W
    (fun id => by simp [envC6W]; split <;> simp) (by decide)

/- ===== C7 ===== -/

/-- C7: `match_transcript_to_episode` declares exactly two positional
parameters (transcript, episodes) and no defaults, so the three-argument
call `match_transcript_to_episode(transcript, episodes, ai_summary)` made
by `process_episode.py` raises `TypeError` rather than succeeding; the
two-argument call binds fine. -/
theorem aux_summary_call_raises_type_error :
    pyCallPositional match_transcript_to_episode_paramCount 3 =
      PyCallResult.typeError ∧
    pyCallPositional match_transcript_to_episode_paramCount 2 =
      PyCallResult.ok := by decide

/- ===== C8 ===== -/

/-- C8: `is_cache_valid` is true iff the persisted cache file exists and
its age (now minus mtime) is strictly less than 30 days (2592000 seconds);
concretely, it is false for a file last modified 31 days ago and true for
one modified 1 day ago. -/
theorem cache_freshness (env : Env) :
    (is_cache_valid env = true ↔
      env.cacheExists = true ∧ env.timeNow - env.cacheMtime < 2592000) ∧
    is_cache_valid envC8a = false ∧
    is_cache_valid envC8b = true := by
  refine ⟨?_, by decide, by decide⟩
  simp only [is_cache_valid, CACHE_EXPIRY_DAYS, Bool.and_eq_true,
    decide_eq_true_eq]
  constructor
  · rintro ⟨h1, h2⟩
    refine ⟨h1, ?_⟩
    rw [Int.fdiv_eq_ediv _ (by norm_num)] at h2
    have h3 := (Int.ediv_lt_iff_lt_mul
      (by norm_num : (0 : ℤ) < 86400)).mp h2
    omega
  · rintro ⟨h1, h2⟩
    refine ⟨h1, ?_⟩
    rw [Int.fdiv_eq_ediv _ (by norm_num)]
    exact (Int.ediv_lt_iff_lt_mul (by norm_num : (0 : ℤ) < 86400)).mpr
      (by omega)

/- ===== Lemmas: the interleaving model ===== -/

theorem lookup0_setk (l : List (ℕ × ℕ)) (w v x : ℕ) :
    lookup0 (setk l w v) x = if x = w then v else lookup0 l x := by
  by_cases h : x = w
  · subst h
    simp [lookup0, setk, List.find?_cons]
  · have hb : (w == x) = false := by simp [Ne.symm h]
    simp [lookup0, setk, List.find?_cons, hb, h]

theorem sum_ind_eq (n w : ℕ) (f g : ℕ → ℕ) (k : ℕ)
    (hg : ∀ x, g x = if x = w then k else f x)
    (hk : 3 ≤ k ↔ 3 ≤ f w) :
    ∑ x ∈ Finset.range n, (if 3 ≤ g x then 1 else 0) =
      ∑ x ∈ Finset.range n, (if 3 ≤ f x then 1 else 0) := by
  apply Finset.sum_congr rfl
  intro x _
  rw [hg x]
  by_cases hxw : x = w
  · subst hxw
    rw [if_pos rfl]
    exact if_congr hk rfl rfl
  · rw [if_neg hxw]

theorem sum_ind_succ (n w : ℕ) (hw : w < n) (f g : ℕ → ℕ) (k : ℕ)
    (hg : ∀ x, g x = if x = w then k else f x)
    (hfw : ¬ 3 ≤ f w) (hk : 3 ≤ k) :
    ∑ x ∈ Finset.range n, (if 3 ≤ g x then 1 else 0) =
      (∑ x ∈ Finset.range n, (if 3 ≤ f x then 1 else 0)) + 1 := by
  have hmem : w ∈ Finset.range n := Finset.mem_range.mpr hw
  rw [Finset.sum_eq_sum_diff_singleton_add hmem
      (fun x => if 3 ≤ g x then 1 else 0),
    Finset.sum_eq_sum_diff_singleton_add hmem
      (fun x => if 3 ≤ f x then 1 else 0)]
  have hsum : ∑ x ∈ Finset.range n \ {w}, (if 3 ≤ g x then 1 else 0) =
      ∑ x ∈ Finset.range n \ {w}, (if 3 ≤ f x then 1 else 0) := by
    apply Finset.sum_congr rfl
    intro x hx
    have hxw : x ≠ w := by
      rcases Finset.mem_sdiff.mp hx with ⟨_, hns⟩
      simpa using hns
    rw [hg x, if_neg hxw]
  rw [hsum, hg w, if_pos rfl, if_pos hk, if_neg hfw]

theorem stepEv_inv (n : ℕ) (st st' : TSt) (e : Ev)
    (hinv : TInv n st) (hstep : stepEv n st e = some st') : TInv n st' := by
  obtain ⟨hcnt, hhi, hhold, hread⟩ := hinv
  cases e with
  | acq w =>
    rw [stepEv] at hstep
    split at hstep
    · rename_i hcond
      obtain ⟨hwn, hnone, hpc0⟩ := hcond
      injection hstep with hst
      subst hst
      have hpc' : ∀ x, pcOf { st with holder := some w, pc := setk st.pc w 1 } x
          = if x = w then 1 else pcOf st x := fun x => by
        simp only [pcOf]
        exact lookup0_setk st.pc w 1 x
      refine ⟨?_, ?_, ?_, ?_⟩
      · show st.counter = _
        exact hcnt.trans
          (sum_ind_eq n w (pcOf st) _ 1 hpc' (by rw [hpc0]; decide)).symm
      · intro x hx
        have hxw : x ≠ w := by omega
        rw [hpc', if_neg hxw]
        exact hhi x hx
      · intro x hx
        rw [hpc'] at hx
        by_cases hxw : x = w
        · subst hxw
          rfl
        · rw [if_neg hxw] at hx
          have h1 := hhold x hx
          rw [hnone] at h1
          exact Option.noConfusion h1
      · intro x hx
        rw [hpc'] at hx
        by_cases hxw : x = w
        · subst hxw
          rw [if_pos rfl] at hx
          exact absurd hx (by decide)
        · rw [if_neg hxw] at hx
          show readvOf _ x = _
          simp only [readvOf]
          exact hread x hx
    · exact Option.noConfusion hstep
  | rd w v =>
    rw [stepEv] at hstep
    split at hstep
    · rename_i hcond
      obtain ⟨hsome, hpc1, hv⟩ := hcond
      injection hstep with hst
      subst hst
      have hpc' : ∀ x,
          pcOf { st with readv := setk st.readv w v, pc := setk st.pc w 2 } x
          = if x = w then 2 else pcOf st x := fun x => by
        simp only [pcOf]
        exact lookup0_setk st.pc w 2 x
      have hrv' : ∀ x,
          readvOf { st with readv := setk st.readv w v, pc := setk st.pc w 2 } x
          = if x = w then v else readvOf st x := fun x => by
        simp only [readvOf]
        exact lookup0_setk st.readv w v x
      refine ⟨?_, ?_, ?_, ?_⟩
      · show st.counter = _
        exact hcnt.trans
          (sum_ind_eq n w (pcOf st) _ 2 hpc' (by rw [hpc1]; decide)).symm
      · intro x hx
        by_cases hxw : x = w
        · subst hxw
          have := hhi x hx
          rw [hpc1] at this
          exact absurd this (by decide)
        · rw [hpc', if_neg hxw]
          exact hhi x hx
      · intro x hx
        rw [hpc'] at hx
        by_cases hxw : x = w
        · subst hxw
          exact hsome
        · rw [if_neg hxw] at hx
          exact hhold x hx
      · intro x hx
        rw [hpc'] at hx
        by_cases hxw : x = w
        · subst hxw
          rw [hrv', if_pos rfl]
          exact hv
        · rw [if_neg hxw] at hx
          rw [hrv', if_neg hxw]
          exact hread x hx
    · exact Option.noConfusion hstep
  | wr w v =>
    rw [stepEv] at hstep
    split at hstep
    · rename_i hcond
      obtain ⟨hsome, hpc2, hv⟩ := hcond
      injection hstep with hst
      subst hst
      have hwn : w < n := by
        by_contra hge
        have := hhi w (by omega)
        rw [hpc2] at this
        exact absurd this (by decide)
      have hpc' : ∀ x, pcOf { st with counter := v, pc := setk st.pc w 3 } x
          = if x = w then 3 else pcOf st x := fun x => by
        simp only [pcOf]
        exact lookup0_setk st.pc w 3 x
      have hvc : v = st.counter + 1 := by
        rw [hv, hread w hpc2]
      refine ⟨?_, ?_, ?_, ?_⟩
      · show v = _
        exact hvc.trans ((congrArg (· + 1) hcnt).trans
          (sum_ind_succ n w hwn (pcOf st) _ 3 hpc'
            (by rw [hpc2]; decide) (by decide)).symm)
      · intro x hx
        have hxw : x ≠ w := by omega
        rw [hpc', if_neg hxw]
        exact hhi x hx
      · intro x hx
        rw [hpc'] at hx
        by_cases hxw : x = w
        · subst hxw
          exact hsome
        · rw [if_neg hxw] at hx
          exact hhold x hx
      · intro x hx
        rw [hpc'] at hx
        by_cases hxw : x = w
        · subst hxw
          rw [if_pos rfl] at hx
          exact absurd hx (by decide)
        · rw [if_neg hxw] at hx
          have h1 := hhold x (by omega)
          rw [hsome] at h1
          injection h1 with h2
          exact absurd h2.symm hxw
    · exact Option.noConfusion hstep
  | rel w =>
    rw [stepEv] at hstep
    split at hstep
    · rename_i hcond
      obtain ⟨hsome, hpc3⟩ := hcond
      injection hstep with hst
      subst hst
      have hpc' : ∀ x, pcOf { st with holder := none, pc := setk st.pc w 4 } x
          = if x = w then 4 else pcOf st x := fun x => by
        simp only [pcOf]
        exact lookup0_setk st.pc w 4 x
      refine ⟨?_, ?_, ?_, ?_⟩
      · show st.counter = _
        exact hcnt.trans
          (sum_ind_eq n w (pcOf st) _ 4 hpc' (by rw [hpc3]; decide)).symm
      · intro x hx
        by_cases hxw : x = w
        · subst hxw
          have := hhi x hx
          rw [hpc3] at this
          exact absurd this (by decide)
        · rw [hpc', if_neg hxw]
          exact hhi x hx
      · intro x hx
        rw [hpc'] at hx
        by_cases hxw : x = w
        · subst hxw
          rw [if_pos rfl] at hx
          omega
        · rw [if_neg hxw] at hx
          have h1 := hhold x hx
          rw [hsome] at h1
          injection h1 with h2
          exact absurd h2.symm hxw
      · intro x hx
        rw [hpc'] at hx
        by_cases hxw : x = w
        · subst hxw
          rw [if_pos rfl] at hx
          exact absurd hx (by decide)
        · rw [if_neg hxw] at hx
          have h1 := hhold x (by omega)
          rw [hsome] at h1
          injection h1 with h2
          exact absurd h2.symm hxw
    · exact Option.noConfusion hstep

theorem runTrace_inv (n : ℕ) : ∀ (tr : List Ev) (st st' : TSt),
    TInv n st → runTrace n tr st = some st' → TInv n st' := by
  intro tr
  induction tr with
  | nil =>
    intro st st' h hr
    rw [runTrace] at hr
    injection hr with h'
    subst h'
    exact h
  | cons e es ih =>
    intro st st' h hr
    rw [runTrace] at hr
    cases hs : stepEv n st e with
    | none =>
      rw [hs] at hr
      exact Option.noConfusion hr
    | some st1 =>
      rw [hs] at hr
      exact ih st1 st' (stepEv_inv n st st1 e h hs) hr

theorem TInv_init (n : ℕ) : TInv n initTSt := by
  refine ⟨?_, ?_, ?_, ?_⟩
  · simp [initTSt, pcOf, lookup0]
  · intro x _
    simp [initTSt, pcOf, lookup0]
  · intro x hx
    simp [initTSt, pcOf, lookup0] at hx
  · intro x hx
    simp [initTSt, pcOf, lookup0] at hx

theorem TInv_final (n : ℕ) (st : TSt) (hinv : TInv n st)
    (hdone : ∀ w, w < n → pcOf st w = 4) : st.counter = n := by
  obtain ⟨hcnt, _, _, _⟩ := hinv
  rw [hcnt]
  have hone : ∀ x ∈ Finset.range n, (if 3 ≤ pcOf st x then 1 else 0) = 1 := by
    intro x hx
    rw [hdone x (Finset.mem_range.mp hx)]
    simp
  rw [Finset.sum_congr rfl hone]
  simp

/- ===== C10 ===== -/

/-- C10: with `n` the number of non-failing episode-detail fetches, EVERY
valid complete interleaving of the `n` successful workers' mutex-protected
progress updates ends with the shared counter exactly `n` — no lost or
doubled increments under any completion order — and the final catalog
contains exactly one record per non-failing fetch (its length is `n`,
independent of the interleaving, since the main thread collects results in
submission order). -/
theorem concurrent_progress_and_catalog (env : Env) (tr : List Ev)
    (hmk : ∀ id, env.detailResp id ≠ .missingKey)
    (hcache : is_cache_valid env = false) :
    (∀ st : TSt, runTrace (numOkDetails env) tr initTSt = some st →
      (∀ w, w < numOkDetails env → pcOf st w = 4) →
      st.counter = numOkDetails env) ∧
    (∀ (eps : List Episode) (eff : Option (List Episode)),
      fetch_friends_episodes env = .ok (eps, eff) →
      eps.length = numOkDetails env) := by
  constructor
  · intro st hrun hdone
    exact TInv_final _ st (runTrace_inv _ tr initTSt st (TInv_init _) hrun)
      hdone
  · intro eps eff h
    rw [fetch_refresh_eq env hcache, okEpisodes_eq env hmk] at h
    injection h with h'
    have he : okEpisodes env = eps := congrArg Prod.fst h'
    rw [← he]
    rfl

/-- Witness for C10: `envC10` has two successful fetches, and the concrete
complete interleaving `trC10` ends with counter 2 and a catalog of 2. -/
theorem concurrent_progress_and_catalog_witness :
    stC10.counter = numOkDetails envC10 ∧
    ([⟨1, 1, "T", "S"⟩, ⟨1, 2, "T", "S"⟩] : List Episode).length =
      numOkDetails envC10 := by
  have h := concurrent_progress_and_catalog envC10 trC10
    (fun id => by simp [envC10]) (by decide)
  exact ⟨h.1 stC10 (by decide) (by decide), h.2 _ (some _) (by rfl)⟩

/- ===== C9: counterexample ===== -/

/-- C9 counterexample: the transcript `"ba"` shares zero whitespace-
delimited tokens with `epC9`'s summary `"ab"` and title `"ab"`, yet its
combined score against `epC9` is 50, not 0: with an empty token
intersection, `token_set_ratio` degrades to the character-level ratio of
the two sorted token strings, which here is 50. -/
theorem zero_shared_tokens_positive_score :
    (∀ tk ∈ pySplit (pyLower "ba").data, tk ∉ pySplit (pyLower "ab").data) ∧
    match_transcript_to_episode "ba" [epC9] = [(epC9, 50)] := by
  exact ⟨by decide, by decide⟩

/- ===== Lemmas: tokens and characters (for the amended C9) ===== -/

theorem dropWhile_head_false (p : Char → Bool) :
    ∀ (l : List Char) (c : Char) (rest : List Char),
      l.dropWhile p = c :: rest → p c = false := by
  intro l
  induction l with
  | nil =>
    intro c rest h
    exact absurd h (by simp)
  | cons a l ih =>
    intro c rest h
    rw [List.dropWhile_cons] at h
    split at h
    · exact ih c rest h
    · rename_i ha
      injection h with h1 _
      subst h1
      simpa using ha

theorem dropWhile_eq_self_of_all (p : Char → Bool) (l : List Char)
    (h : ∀ c ∈ l, p c = false) : l.dropWhile p = l := by
  cases l with
  | nil => rfl
  | cons a l =>
    rw [List.dropWhile_cons]
    simp [h a (List.mem_cons_self a l)]

theorem pyStrip_head_not_space (l : List Char) (c : Char) (rest : List Char)
    (h : pyStrip l = c :: rest) : isSpaceChar c = false := by
  unfold pyStrip at h
  set d := l.dropWhile isSpaceChar with hd
  have hsuff : d.reverse.dropWhile isSpaceChar <:+ d.reverse :=
    List.dropWhile_suffix _
  have hpre : (d.reverse.dropWhile isSpaceChar).reverse <+: d := by
    have h2 : (d.reverse.dropWhile isSpaceChar).reverse.reverse <:+ d.reverse ↔
        (d.reverse.dropWhile isSpaceChar).reverse <+: d := List.reverse_suffix
    rw [List.reverse_reverse] at h2
    exact h2.mp hsuff
  rw [h] at hpre
  rcases hpre with ⟨u, hu⟩
  apply dropWhile_head_false isSpaceChar l c (rest ++ u)
  rw [← hd]
  exact hu.symm

theorem pySplitAux_ne_nil : ∀ (l acc : List Char), acc ≠ [] →
    pySplitAux l acc ≠ [] := by
  intro l
  induction l with
  | nil =>
    intro acc h
    rw [pySplitAux]
    simp [List.isEmpty_iff, h]
  | cons c rest ih =>
    intro acc h
    rw [pySplitAux]
    by_cases hc : isSpaceChar c
    · rw [if_pos hc]
      have he : acc.isEmpty = false := List.isEmpty_eq_false.mpr h
      simp [he]
    · rw [if_neg hc]
      exact ih (c :: acc) (by simp)

theorem pySplit_ne_nil (c : Char) (rest : List Char)
    (hc : isSpaceChar c = false) : pySplit (c :: rest) ≠ [] := by
  unfold pySplit
  rw [pySplitAux, if_neg (by simp [hc])]
  exact pySplitAux_ne_nil rest [c] (by simp)

theorem pySplitAux_tokens : ∀ (l acc tok : List Char),
    (∀ c ∈ acc, isSpaceChar c = false) →
    tok ∈ pySplitAux l acc →
    tok ≠ [] ∧ ∀ c ∈ tok, (c ∈ l ∨ c ∈ acc) ∧ isSpaceChar c = false := by
  intro l
  induction l with
  | nil =>
    intro acc tok hacc htok
    rw [pySplitAux] at htok
    by_cases he : acc.isEmpty
    · rw [if_pos he] at htok
      exact absurd htok (List.not_mem_nil tok)
    · rw [if_neg he] at htok
      have : tok = acc.reverse := List.mem_singleton.mp htok
      subst this
      have hane : acc ≠ [] := by
        intro h0
        exact he (by simp [h0])
      refine ⟨by simp [hane], fun c hc => ?_⟩
      rw [List.mem_reverse] at hc
      exact ⟨Or.inr hc, hacc c hc⟩
  | cons a rest ih =>
    intro acc tok hacc htok
    rw [pySplitAux] at htok
    by_cases ha : isSpaceChar a
    · rw [if_pos ha] at htok
      have step : tok ∈ pySplitAux rest [] →
          tok ≠ [] ∧ ∀ c ∈ tok, (c ∈ a :: rest ∨ c ∈ acc) ∧
            isSpaceChar c = false := by
        intro htok'
        have hr := ih [] tok (by simp) htok'
        refine ⟨hr.1, fun c hc => ?_⟩
        rcases hr.2 c hc with ⟨hmem, hsp⟩
        rcases hmem with h | h
        · exact ⟨Or.inl (List.mem_cons_of_mem a h), hsp⟩
        · exact absurd h (List.not_mem_nil c)
      by_cases he : acc.isEmpty
      · rw [if_pos he] at htok
        exact step htok
      · rw [if_neg he] at htok
        rcases List.mem_cons.mp htok with h | h
        · subst h
          have hane : acc ≠ [] := by
            intro h0
            exact he (by simp [h0])
          refine ⟨by simp [hane], fun c hc => ?_⟩
          rw [List.mem_reverse] at hc
          exact ⟨Or.inr hc, hacc c hc⟩
        · exact step h
    · rw [if_neg ha] at htok
      have hacc' : ∀ c ∈ a :: acc, isSpaceChar c = false := by
        intro c hc
        rcases List.mem_cons.mp hc with h | h
        · subst h
          simpa using ha
        · exact hacc c h
      have hr := ih (a :: acc) tok hacc' htok
      refine ⟨hr.1, fun c hc => ?_⟩
      rcases hr.2 c hc with ⟨hmem, hsp⟩
      rcases hmem with h | h
      · exact ⟨Or.inl (List.mem_cons_of_mem a h), hsp⟩
      · rcases List.mem_cons.mp h with h' | h'
        · subst h'
          exact ⟨Or.inl (List.mem_cons_self c rest), hsp⟩
        · exact ⟨Or.inr h', hsp⟩

theorem pySplit_tokens (l tok : List Char) (h : tok ∈ pySplit l) :
    tok ≠ [] ∧ ∀ c ∈ tok, c ∈ l ∧ isSpaceChar c = false := by
  have hr := pySplitAux_tokens l [] tok (by simp) h
  refine ⟨hr.1, fun c hc => ?_⟩
  rcases hr.2 c hc with ⟨hmem, hsp⟩
  rcases hmem with h' | h'
  · exact ⟨h', hsp⟩
  · exact absurd h' (List.not_mem_nil c)

theorem mem_insertTok (x tok : List Char) : ∀ (l : List (List Char)),
    tok ∈ insertTok x l ↔ tok = x ∨ tok ∈ l := by
  intro l
  induction l with
  | nil => simp [insertTok]
  | cons y ys ih =>
    rw [insertTok]
    by_cases h : tokLt x y
    · rw [if_pos h]
      simp only [List.mem_cons]
    · rw [if_neg h]
      simp only [List.mem_cons, ih]
      tauto

theorem mem_sortToks (tok : List Char) : ∀ (l : List (List Char)),
    tok ∈ sortToks l ↔ tok ∈ l := by
  intro l
  induction l with
  | nil => simp [sortToks]
  | cons a l ih =>
    show tok ∈ insertTok a (sortToks l) ↔ _
    rw [mem_insertTok]
    simp only [List.mem_cons, ih]

theorem sortToks_ne_nil (l : List (List Char)) (h : l ≠ []) :
    sortToks l ≠ [] := by
  cases l with
  | nil => exact absurd rfl h
  | cons a l =>
    show insertTok a (sortToks l) ≠ []
    cases hs : sortToks l with
    | nil => simp [insertTok]
    | cons y ys =>
      rw [insertTok]
      split <;> simp

theorem lcsFuel_eq_zero : ∀ (f : ℕ) (s t : List Char),
    (∀ c ∈ s, c ∉ t) → lcsFuel f s t = 0 := by
  intro f
  induction f with
  | zero => intro s t _; rfl
  | succ f ih =>
    intro s t h
    cases s with
    | nil => rfl
    | cons a s' =>
      cases t with
      | nil => rfl
      | cons b t' =>
        rw [lcsFuel]
        have hab : a ≠ b := by
          intro he
          exact (h a (List.mem_cons_self _ _)) (he ▸ List.mem_cons_self b t')
        rw [if_neg hab]
        have h1 : lcsFuel f (a :: s') t' = 0 :=
          ih _ _ (fun c hc hct => h c hc (List.mem_cons_of_mem b hct))
        have h2 : lcsFuel f s' (b :: t') = 0 :=
          ih _ _ (fun c hc => h c (List.mem_cons_of_mem a hc))
        rw [h1, h2]
        rfl

theorem lcs_eq_zero (s t : List Char) (h : ∀ c ∈ s, c ∉ t) : lcs s t = 0 :=
  lcsFuel_eq_zero _ s t h

theorem ratioLev_eq_zero (a b : List Char) (hne : a.length + b.length ≠ 0)
    (h : lcs a b = 0) : ratioLev a b = 0 := by
  unfold ratioLev
  rw [if_neg hne, h]
  have hpos : 0 < a.length + b.length := Nat.pos_of_ne_zero hne
  simp [intrDiv, hpos]

theorem joinSp_eq_append : ∀ (ts : List (List Char)), ts ≠ [] →
    ∃ (l tok : List Char), joinSp ts = l ++ tok ∧ tok ∈ ts := by
  intro ts
  induction ts with
  | nil => intro h; exact absurd rfl h
  | cons t ts ih =>
    intro _
    cases ts with
    | nil =>
      exact ⟨[], t, by simp [joinSp], List.mem_cons_self _ _⟩
    | cons t2 ts2 =>
      rcases ih (by simp) with ⟨l, tok, hj, hmem⟩
      refine ⟨t ++ ' ' :: l, tok, ?_, List.mem_cons_of_mem t hmem⟩
      show t ++ ' ' :: joinSp (t2 :: ts2) = _
      rw [hj]
      simp

theorem joinSp_head (t : List Char) (ts : List (List Char)) (ht : t ≠ []) :
    ∃ (c : Char) (rest : List Char), joinSp (t :: ts) = c :: rest ∧ c ∈ t := by
  cases t with
  | nil => exact absurd rfl ht
  | cons c tr =>
    cases ts with
    | nil => exact ⟨c, tr, rfl, List.mem_cons_self _ _⟩
    | cons t2 ts2 =>
      refine ⟨c, tr ++ ' ' :: joinSp (t2 :: ts2), ?_, List.mem_cons_self _ _⟩
      show (c :: tr) ++ ' ' :: joinSp (t2 :: ts2) = _
      simp

theorem joinSp_chars : ∀ (ts : List (List Char)) (c : Char),
    c ∈ joinSp ts → c = ' ' ∨ ∃ tok ∈ ts, c ∈ tok := by
  intro ts
  induction ts with
  | nil =>
    intro c hc
    exact absurd hc (List.not_mem_nil c)
  | cons t ts ih =>
    intro c hc
    cases ts with
    | nil =>
      exact Or.inr ⟨t, List.mem_cons_self _ _, hc⟩
    | cons t2 ts2 =>
      have hc' : c ∈ t ++ ' ' :: joinSp (t2 :: ts2) := hc
      rcases List.mem_append.mp hc' with h | h
      · exact Or.inr ⟨t, List.mem_cons_self _ _, h⟩
      · rcases List.mem_cons.mp h with h' | h'
        · exact Or.inl h'
        · rcases ih c h' with h'' | ⟨tok, hmem, hcc⟩
          · exact Or.inl h''
          · exact Or.inr ⟨tok, List.mem_cons_of_mem t hmem, hcc⟩

theorem pyStrip_space_join (ts : List (List Char)) (hne : ts ≠ [])
    (htoks : ∀ tok ∈ ts, tok ≠ [] ∧ ∀ c ∈ tok, isSpaceChar c = false) :
    pyStrip (' ' :: joinSp ts) = joinSp ts ∧ joinSp ts ≠ [] := by
  cases ts with
  | nil => exact absurd rfl hne
  | cons t ts' =>
    rcases joinSp_head t ts' (htoks t (List.mem_cons_self _ _)).1 with
      ⟨c, rest, hj, hct⟩
    have hcsp : isSpaceChar c = false :=
      (htoks t (List.mem_cons_self _ _)).2 c hct
    constructor
    · unfold pyStrip
      have h1 : (' ' :: joinSp (t :: ts')).dropWhile isSpaceChar =
          (joinSp (t :: ts')).dropWhile isSpaceChar := by
        rw [List.dropWhile_cons]
        simp [isSpaceChar]
      have h2 : (joinSp (t :: ts')).dropWhile isSpaceChar =
          joinSp (t :: ts') := by
        rw [hj, List.dropWhile_cons]
        simp [hcsp]
      rw [h1, h2]
      rcases joinSp_eq_append (t :: ts') (by simp) with ⟨l, tok, hjj, hmem⟩
      rcases htoks tok hmem with ⟨htne, htsp⟩
      have htr : tok.reverse ≠ [] := by simp [htne]
      cases hrev : tok.reverse with
      | nil => exact absurd hrev htr
      | cons e er =>
        have hesp : isSpaceChar e = false := by
          apply htsp
          rw [← List.mem_reverse, hrev]
          exact List.mem_cons_self _ _
        rw [hjj, List.reverse_append, hrev, List.cons_append,
          List.dropWhile_cons]
        simp only [hesp, Bool.false_eq_true, if_false]
        rw [show (e :: (er ++ l.reverse)) = tok.reverse ++ l.reverse by
          rw [hrev, List.cons_append]]
        rw [show tok.reverse ++ l.reverse = (l ++ tok).reverse from
          (List.reverse_append _ _).symm, List.reverse_reverse]
    · rw [hj]
      simp

theorem token_set_ratio_zero_of_single_disjoint (s1 s2 : String)
    (tk : List Char)
    (htk : pySplit (full_process s1.data) = [tk])
    (hd : ∀ c ∈ full_process s1.data, c ∉ full_process s2.data) :
    token_set_ratio s1 s2 = 0 := by
  by_cases hp2 : (full_process s2.data).isEmpty
  · simp only [token_set_ratio]
    rw [if_pos (by simp [hp2])]
  · have hp1 : (full_process s1.data).isEmpty = false := by
      cases hp : full_process s1.data with
      | nil =>
        rw [hp] at htk
        exact absurd htk (by simp [pySplit, pySplitAux])
      | cons a l => rfl
    have hp2' : (full_process s2.data).isEmpty = false :=
      eq_false_of_ne_true hp2
    simp only [token_set_ratio]
    rw [if_neg (by simp [hp1, hp2'])]
    set P1 := full_process s1.data with hP1
    set P2 := full_process s2.data with hP2
    have htkfacts := pySplit_tokens P1 tk
      (by rw [htk]; exact List.mem_cons_self _ _)
    have htkne : tk ≠ [] := htkfacts.1
    have htkP1 := htkfacts.2
    have htknotin : tk ∉ (pySplit P2).dedup := by
      intro hm
      have hm' : tk ∈ pySplit P2 := List.mem_dedup.mp hm
      have h2 := pySplit_tokens P2 tk hm'
      cases hc : tk with
      | nil => exact htkne hc
      | cons c cr =>
        have hc1 : c ∈ tk := by
          rw [hc]
          exact List.mem_cons_self _ _
        exact hd c (htkP1 c hc1).1 (h2.2 c hc1).1
    have hded : ([tk] : List (List Char)).dedup = [tk] := by simp
    have htknotin' : tk ∉ pySplit P2 :=
      fun hm => htknotin (List.mem_dedup.mpr hm)
    have hfsect :
        ([tk] : List (List Char)).filter
          (fun t => decide (t ∈ (pySplit P2).dedup)) = [] := by
      simp [htknotin']
    have hfdiff :
        ([tk] : List (List Char)).filter
          (fun t => decide (t ∉ (pySplit P2).dedup)) = [tk] := by
      simp [htknotin']
    have hf21 :
        ((pySplit P2).dedup).filter (fun t => decide (t ∉ [tk])) =
          (pySplit P2).dedup := by
      apply List.filter_eq_self.mpr
      intro u hu
      simp only [decide_eq_true_eq, List.mem_singleton]
      intro he
      exact htknotin (he ▸ hu)
    rw [htk, hded, hfsect, hfdiff, hf21]
    have e1 : sortToks ([] : List (List Char)) = [] := rfl
    have e4 : sortToks [tk] = [tk] := rfl
    have e5 : joinSp [tk] = tk := rfl
    rw [e1, e4, e5]
    have e2 : joinSp ([] : List (List Char)) = [] := rfl
    rw [e2]
    simp only [List.nil_append]
    have e3 : pyStrip ([] : List Char) = [] := rfl
    rw [e3]
    have hT2ne : (pySplit P2).dedup ≠ [] := by
      cases hp : P2 with
      | nil =>
        rw [hp] at hp2'
        simp at hp2'
      | cons c rest =>
        have hfp : pyStrip (((s2.data.filter isAsciiChar).map
            (fun c => if isWordChar c then c else ' ')).map lowerChar) =
            c :: rest := by
          rw [← hp]
          rfl
        have hcsp : isSpaceChar c = false :=
          pyStrip_head_not_space _ c rest hfp
        have hne := pySplit_ne_nil c rest hcsp
        intro h0
        exact hne ((List.dedup_eq_nil _).mp h0)
    have hT2toks : ∀ tok ∈ sortToks ((pySplit P2).dedup),
        tok ≠ [] ∧ ∀ c ∈ tok, isSpaceChar c = false := by
      intro tok hm
      have hm2 : tok ∈ pySplit P2 :=
        List.mem_dedup.mp ((mem_sortToks tok _).mp hm)
      have h2 := pySplit_tokens P2 tok hm2
      exact ⟨h2.1, fun c hc => (h2.2 c hc).2⟩
    have hsT2ne : sortToks ((pySplit P2).dedup) ≠ [] :=
      sortToks_ne_nil _ hT2ne
    have hJ := pyStrip_space_join (sortToks ((pySplit P2).dedup)) hsT2ne
      hT2toks
    have htkstrip := pyStrip_space_join [tk] (by simp) (by
      intro tok hm
      rw [List.mem_singleton] at hm
      subst hm
      exact ⟨htkne, fun c hc => (htkP1 c hc).2⟩)
    rw [e5] at htkstrip
    rw [htkstrip.1, hJ.1]
    have hz1 : ratioLev [] tk = 0 :=
      ratioLev_eq_zero [] tk (by simp [List.length_eq_zero, htkne])
        (lcs_eq_zero [] tk (fun c hc => absurd hc (List.not_mem_nil c)))
    have hz2 : ratioLev [] (joinSp (sortToks ((pySplit P2).dedup))) = 0 :=
      ratioLev_eq_zero _ _
        (by simp [List.length_eq_zero, hJ.2])
        (lcs_eq_zero _ _ (fun c hc => absurd hc (List.not_mem_nil c)))
    have hz3 : ratioLev tk (joinSp (sortToks ((pySplit P2).dedup))) = 0 := by
      apply ratioLev_eq_zero _ _ (by simp [List.length_eq_zero, htkne])
      apply lcs_eq_zero
      intro c hc hcJ
      rcases joinSp_chars _ c hcJ with hsp | ⟨tok, hmem, hcc⟩
      · have := (htkP1 c hc).2
        rw [hsp] at this
        simp [isSpaceChar] at this
      · have hm2 : tok ∈ pySplit P2 :=
          List.mem_dedup.mp ((mem_sortToks tok _).mp hmem)
        exact hd c (htkP1 c hc).1 ((pySplit_tokens P2 tok hm2).2 c hcc).1
    rw [hz1, hz2, hz3]
    rfl

/-- C9 amended: a transcript sharing zero whitespace-delimited tokens with
an episode's summary and title can still receive a positive score (see the
counterexample: the token-set ratio falls back to a character-level
comparison of the sorted token strings).  The guaranteed-zero form that
does hold: if the processed transcript is a single token and shares no
character with the processed summary nor with the processed title, the
combined score for that episode is 0. -/
theorem single_token_char_disjoint_scores_zero (t : String) (e : Episode)
    (tk : List Char)
    (htk : pySplit (full_process (pyLower t).data) = [tk])
    (hds : ∀ c ∈ full_process (pyLower t).data,
      c ∉ full_process (pyLower e.summary).data)
    (hdt : ∀ c ∈ full_process (pyLower t).data,
      c ∉ full_process (pyLower e.title).data) :
    episodeScore t e = 0 := by
  have h1 := token_set_ratio_zero_of_single_disjoint (pyLower t)
    (pyLower e.summary) tk htk hds
  have h2 := token_set_ratio_zero_of_single_disjoint (pyLower t)
    (pyLower e.title) tk htk hdt
  simp [episodeScore, h1, h2]

/-- Witness for the amended C9: transcript `"qq"` is a single token sharing
no character with `epC9`'s summary/title `"ab"`, and scores 0. -/
theorem single_token_char_disjoint_scores_zero_witness :
    pySplit (full_process (pyLower "qq").data) = [['q', 'q']] ∧
    episodeScore "qq" epC9 = 0 :=
  ⟨by decide, single_token_char_disjoint_scores_zero "qq" epC9 ['q', 'q']
    (by decide) (by decide) (by decide)⟩
